import Mathlib

set_option maxHeartbeats 1000000

/-!
Shallow embedding of fylm's metadata extraction engine
(`src/fylm/fylmlib/patterns.py`, `src/fylm/fylmlib/parser.py`) and of its
safe transfer engine (specified in the repository's design document; the
engine's own module is exercised by `src/fylm/tests/test_move.py`).

Python strings are modelled as `List Char`.  The regex word-character class
`\w` is modelled as ASCII alphanumerics plus underscore and case folding as
ASCII `Char.toLower`/`Char.toUpper` (the repository's inputs are file and
folder names, matched case-insensitively by the Python code with `re.I`).
-/

/-- ASCII model of the regex word-character class `\w`. -/
def isWordChar (c : Char) : Bool := c.isAlphanum || c == '_'

/-- Character of `s` at index `k`, tested for wordness; an out-of-range
index counts as non-word (as it does for the regex `\b`). -/
def isWordAt (s : List Char) (k : Nat) : Bool :=
  match s[k]? with
  | some c => isWordChar c
  | none => false

/-- Regex `\b`: a word boundary sits at `k` iff exactly one of the two
adjacent positions holds a word character. -/
def wordBoundaryAt (s : List Char) (k : Nat) : Bool :=
  (match k with
   | 0 => false
   | k' + 1 => isWordAt s k') != isWordAt s k

/-- Case-insensitive literal match of `lit` at index `k` of `s`
(regex alternatives compiled with `re.I`). -/
def litCIAt (s : List Char) (k : Nat) : List Char → Bool
  | [] => true
  | c :: rest =>
    match s[k]? with
    | some d => d.toLower == c.toLower && litCIAt s (k + 1) rest
    | none => false

/-- Left-to-right scan used to model `re.search`: the first index `i` in
`[k, k + fuel)` with `f i = some r` wins. -/
def searchFrom {α : Type} (f : Nat → Option α) (k : Nat) : Nat → Option α
  | 0 => none
  | fuel + 1 =>
    match f k with
    | some r => some r
    | none => searchFrom f (k + 1) fuel

theorem searchFrom_eq_none {α : Type} (f : Nat → Option α) :
    ∀ fuel k, (∀ j, k ≤ j → j < k + fuel → f j = none) → searchFrom f k fuel = none := by
  intro fuel
  induction fuel with
  | zero => intro k _; rfl
  | succ n ih =>
    intro k h
    have hk : f k = none := h k (Nat.le_refl _) (by omega)
    simp only [searchFrom, hk]
    exact ih (k + 1) (fun j h1 h2 => h j (by omega) (by omega))

theorem searchFrom_eq_some {α : Type} (f : Nat → Option α) :
    ∀ fuel k m r, k ≤ m → m < k + fuel → f m = some r →
      (∀ j, k ≤ j → j < m → f j = none) → searchFrom f k fuel = some r := by
  intro fuel
  induction fuel with
  | zero => intro k m r h1 h2; omega
  | succ n ih =>
    intro k m r h1 h2 hm hnone
    by_cases hk : k = m
    · subst hk; simp only [searchFrom, hm]
    · have : f k = none := hnone k (Nat.le_refl _) (by omega)
      simp only [searchFrom, this]
      exact ih (k + 1) m r (by omega) (by omega) hm
        (fun j h1 h2 => hnone j (by omega) h2)

theorem searchFrom_none_forall {α : Type} (f : Nat → Option α) :
    ∀ fuel k, searchFrom f k fuel = none → ∀ j, k ≤ j → j < k + fuel → f j = none := by
  intro fuel
  induction fuel with
  | zero => intro k _ j h1 h2; omega
  | succ n ih =>
    intro k h j h1 h2
    simp only [searchFrom] at h
    cases hk : f k with
    | some r => rw [hk] at h; exact absurd h (by simp)
    | none =>
      rw [hk] at h
      by_cases hj : j = k
      · subst hj; exact hk
      · exact ih (k + 1) h j (by omega) (by omega)

theorem searchFrom_some_exists {α : Type} (f : Nat → Option α) :
    ∀ fuel k r, searchFrom f k fuel = some r →
      ∃ m, k ≤ m ∧ m < k + fuel ∧ f m = some r ∧ ∀ j, k ≤ j → j < m → f j = none := by
  intro fuel
  induction fuel with
  | zero => intro k r h; exact absurd h (by simp [searchFrom])
  | succ n ih =>
    intro k r h
    simp only [searchFrom] at h
    cases hk : f k with
    | some v =>
      rw [hk] at h
      refine ⟨k, Nat.le_refl _, by omega, ?_, fun j h1 h2 => by omega⟩
      rw [hk]; exact h
    | none =>
      rw [hk] at h
      obtain ⟨m, hm1, hm2, hm3, hm4⟩ := ih (k + 1) r h
      refine ⟨m, by omega, by omega, hm3, fun j h1 h2 => ?_⟩
      by_cases hj : j = k
      · subst hj; exact hk
      · exact hm4 j (by omega) h2

/-- Numeric value of an ASCII digit character. -/
def digitVal (c : Char) : Nat := c.toNat - '0'.toNat

/-- The year capture group of `patterns.year`,
`192[1-9]|19[3-9]\d|20[0-9]\d|21[0-5]\d`, tested on four characters. -/
def yearAlt (c0 c1 c2 c3 : Char) : Bool :=
  (c0 == '1' && c1 == '9' && c2 == '2' && (decide ('1' ≤ c3) && decide (c3 ≤ '9'))) ||
  (c0 == '1' && c1 == '9' && (decide ('3' ≤ c2) && decide (c2 ≤ '9')) && c3.isDigit) ||
  (c0 == '2' && c1 == '0' && c2.isDigit && c3.isDigit) ||
  (c0 == '2' && c1 == '1' && (decide ('0' ≤ c2) && decide (c2 ≤ '5')) && c3.isDigit)

/-- The year group matched at index `k` of `s`, returning its numeric value.
It consumes exactly four characters. -/
def yearGroup? (s : List Char) (k : Nat) : Option Nat :=
  match s[k]?, s[k + 1]?, s[k + 2]?, s[k + 3]? with
  | some c0, some c1, some c2, some c3 =>
    if yearAlt c0 c1 c2 c3 then
      some (1000 * digitVal c0 + 100 * digitVal c1 + 10 * digitVal c2 + digitVal c3)
    else none
  | _, _, _, _ => none

/-- The tail `\b(?P<year>...)\b` of `patterns.year` at index `k`: a word
boundary, the four-digit year group, and a trailing word boundary. -/
def yearCandAt (s : List Char) (k : Nat) : Option Nat :=
  if wordBoundaryAt s k then
    match yearGroup? s k with
    | some y => if wordBoundaryAt s (k + 4) then some y else none
    | none => none
  else none

/-- The regex class `[^\/]` at index `i`: a character is present and is not a
slash. -/
def nonSlashAt (s : List Char) (i : Nat) : Bool :=
  match s[i]? with
  | some c => c != '/'
  | none => false

/-- All positions of `[p, k)` hold non-slash characters (the span the greedy
`[^\/]+` of `patterns.year` consumes). -/
def noSlashSeg (s : List Char) (p k : Nat) : Bool :=
  (List.range (k - p)).all (fun i => nonSlashAt s (p + i))

/-- One backtracking attempt of `patterns.year` at start position `p`: the
greedy `[^\/]+` tries its longest length first (`L + 1` characters down to
one), and the first length whose continuation `\b(year)\b` matches wins.
Returns the match's end position and the captured year. -/
def greedyYear (s : List Char) (p : Nat) : Nat → Option (Nat × Nat)
  | 0 => none
  | L + 1 =>
    if noSlashSeg s p (p + L + 1) then
      match yearCandAt s (p + L + 1) with
      | some y => some (p + L + 1 + 4, y)
      | none => greedyYear s p L
    else greedyYear s p L

/-- `re.finditer(patterns.year, s)`: scan start positions left to right,
emit each non-overlapping match, and resume after a match's end.  `fuel`
dominates the number of remaining scan steps. -/
def finditerYearAux (s : List Char) : Nat → Nat → List (Nat × Nat)
  | 0, _ => []
  | fuel + 1, p =>
    if p < s.length then
      match greedyYear s p (s.length - p) with
      | some (e, y) => (e, y) :: finditerYearAux s fuel e
      | none => finditerYearAux s fuel (p + 1)
    else []

/-- All matches of `patterns.year` over `s`, in order of occurrence. -/
def finditerYear (s : List Char) : List (Nat × Nat) :=
  finditerYearAux s (s.length + 1) 0

/-- `parser.get_year`: run `patterns.year` over `f'{folder}/{file}'` and
return the year of the last match, or `none` when there is no match. -/
def get_year (folder file : String) : Option Nat :=
  match (finditerYear ((folder ++ "/" ++ file).toList)).getLast? with
  | some (_, y) => some y
  | none => none

/-- Specification-level reading of `patterns.year`: a standalone year token
sits at index `k` iff `k` is not the string start, the preceding character is
neither a word character nor a path separator, the four-character year group
matches at `k`, and no word character follows it. -/
def yearTokenAt (s : List Char) (k : Nat) : Option Nat :=
  match k with
  | 0 => none
  | k' + 1 =>
    match s[k']? with
    | some c =>
      if isWordChar c || c == '/' then none
      else
        match yearGroup? s (k' + 1) with
        | some y => if isWordAt s (k' + 1 + 4) then none else some y
        | none => none
    | none => none

example : get_year "Rogue.One.A.Star.Wars.Story.2016.PROPER.1080p" "file.mkv" = some 2016 := by decide
example : get_year "2001.A.Space.Odyssey.1968.1080p" "f.mkv" = some 1968 := by decide
example : get_year "1920x1080" "BT2020.mkv" = none := by decide
example : get_year "Movie" "Movie.mkv" = none := by decide
example : yearTokenAt ("x.2001.y.1968/f.mkv".toList) 9 = some 1968 := by decide
example : get_year "x.2001.y.1968" "f.mkv" = some 1968 := by decide

theorem yearAlt_facts {c0 c1 c2 c3 : Char} (h : yearAlt c0 c1 c2 c3 = true) :
    (48 ≤ c0.toNat ∧ c0.toNat ≤ 57) ∧ (48 ≤ c1.toNat ∧ c1.toNat ≤ 57) ∧
    (48 ≤ c2.toNat ∧ c2.toNat ≤ 57) ∧ (48 ≤ c3.toNat ∧ c3.toNat ≤ 57) ∧
    1921 ≤ 1000 * digitVal c0 + 100 * digitVal c1 + 10 * digitVal c2 + digitVal c3 ∧
    1000 * digitVal c0 + 100 * digitVal c1 + 10 * digitVal c2 + digitVal c3 ≤ 2159 := by
  have d0 : digitVal c0 = c0.toNat - 48 := rfl
  have d1 : digitVal c1 = c1.toNat - 48 := rfl
  have d2 : digitVal c2 = c2.toNat - 48 := rfl
  have d3 : digitVal c3 = c3.toNat - 48 := rfl
  simp only [yearAlt, Bool.or_eq_true, Bool.and_eq_true, beq_iff_eq,
    decide_eq_true_eq] at h
  rcases h with ((h | h) | h) | h
  · obtain ⟨⟨⟨h0, h1⟩, h2⟩, h3a, h3b⟩ := h
    have n0 : c0.toNat = 49 := by rw [h0]; decide
    have n1 : c1.toNat = 57 := by rw [h1]; decide
    have n2 : c2.toNat = 50 := by rw [h2]; decide
    have n3a : 49 ≤ c3.toNat := h3a
    have n3b : c3.toNat ≤ 57 := h3b
    omega
  · obtain ⟨⟨⟨h0, h1⟩, h2a, h2b⟩, h3⟩ := h
    have n0 : c0.toNat = 49 := by rw [h0]; decide
    have n1 : c1.toNat = 57 := by rw [h1]; decide
    have n2a : 51 ≤ c2.toNat := h2a
    have n2b : c2.toNat ≤ 57 := h2b
    have n3 : 48 ≤ c3.toNat ∧ c3.toNat ≤ 57 := by simpa [Char.isDigit] using h3
    omega
  · obtain ⟨⟨⟨h0, h1⟩, h2⟩, h3⟩ := h
    have n0 : c0.toNat = 50 := by rw [h0]; decide
    have n1 : c1.toNat = 48 := by rw [h1]; decide
    have n2 : 48 ≤ c2.toNat ∧ c2.toNat ≤ 57 := by simpa [Char.isDigit] using h2
    have n3 : 48 ≤ c3.toNat ∧ c3.toNat ≤ 57 := by simpa [Char.isDigit] using h3
    omega
  · obtain ⟨⟨⟨h0, h1⟩, h2a, h2b⟩, h3⟩ := h
    have n0 : c0.toNat = 50 := by rw [h0]; decide
    have n1 : c1.toNat = 49 := by rw [h1]; decide
    have n2a : 48 ≤ c2.toNat := h2a
    have n2b : c2.toNat ≤ 53 := h2b
    have n3 : 48 ≤ c3.toNat ∧ c3.toNat ≤ 57 := by simpa [Char.isDigit] using h3
    omega

theorem yearGroup?_elim {s : List Char} {k y : Nat} (h : yearGroup? s k = some y) :
    ∃ c0 c1 c2 c3, s[k]? = some c0 ∧ s[k + 1]? = some c1 ∧ s[k + 2]? = some c2 ∧
      s[k + 3]? = some c3 ∧ yearAlt c0 c1 c2 c3 = true ∧
      y = 1000 * digitVal c0 + 100 * digitVal c1 + 10 * digitVal c2 + digitVal c3 := by
  unfold yearGroup? at h
  split at h
  next c0 c1 c2 c3 e0 e1 e2 e3 =>
    split at h
    next ha => exact ⟨c0, c1, c2, c3, e0, e1, e2, e3, ha, (Option.some_inj.mp h).symm⟩
    next => exact absurd h (by simp)
  next => exact absurd h (by simp)

theorem yearGroup?_range {s : List Char} {k y : Nat} (h : yearGroup? s k = some y) :
    1921 ≤ y ∧ y ≤ 2159 := by
  obtain ⟨c0, c1, c2, c3, _, _, _, _, ha, hv⟩ := yearGroup?_elim h
  obtain ⟨_, _, _, _, h5, h6⟩ := yearAlt_facts ha
  omega

theorem isWordChar_of_digitRange {c : Char} (h1 : 48 ≤ c.toNat) (h2 : c.toNat ≤ 57) :
    isWordChar c = true := by
  have hd : c.isDigit = true := by
    simp only [Char.isDigit, Bool.and_eq_true, decide_eq_true_eq]
    exact ⟨h1, h2⟩
  simp [isWordChar, Char.isAlphanum, hd]

theorem yearGroup?_isWordAt {s : List Char} {k y : Nat} (h : yearGroup? s k = some y) :
    ∀ i, i < 4 → isWordAt s (k + i) = true := by
  obtain ⟨c0, c1, c2, c3, e0, e1, e2, e3, ha, _⟩ := yearGroup?_elim h
  obtain ⟨b0, b1, b2, b3, _, _⟩ := yearAlt_facts ha
  intro i hi
  interval_cases i
  · simpa [isWordAt, e0] using isWordChar_of_digitRange b0.1 b0.2
  · simpa [isWordAt, e1] using isWordChar_of_digitRange b1.1 b1.2
  · simpa [isWordAt, e2] using isWordChar_of_digitRange b2.1 b2.2
  · simpa [isWordAt, e3] using isWordChar_of_digitRange b3.1 b3.2

theorem yearGroup?_len {s : List Char} {k y : Nat} (h : yearGroup? s k = some y) :
    k + 4 ≤ s.length := by
  obtain ⟨c0, c1, c2, c3, _, _, _, e3, _, _⟩ := yearGroup?_elim h
  by_contra hlt
  rw [List.getElem?_eq_none (by omega)] at e3
  exact absurd e3 (by simp)

theorem yearTokenAt_zero {s : List Char} : yearTokenAt s 0 = none := rfl

theorem yearTokenAt_elim {s : List Char} {k y : Nat} (h : yearTokenAt s k = some y) :
    ∃ k' c, k = k' + 1 ∧ s[k']? = some c ∧ isWordChar c = false ∧ c ≠ '/' ∧
      yearGroup? s k = some y ∧ isWordAt s (k + 4) = false := by
  match k with
  | 0 => exact absurd h (by simp [yearTokenAt])
  | k' + 1 =>
    simp only [yearTokenAt] at h
    cases ec : s[k']? with
    | none => rw [ec] at h; exact absurd h (by simp)
    | some c =>
      rw [ec] at h
      simp only at h
      by_cases hw : (isWordChar c || c == '/') = true
      · rw [if_pos hw] at h; exact absurd h (by simp)
      · rw [if_neg hw] at h
        simp only [Bool.or_eq_true, beq_iff_eq, not_or] at hw
        cases eg : yearGroup? s (k' + 1) with
        | none => rw [eg] at h; exact absurd h (by simp)
        | some y0 =>
          rw [eg] at h
          simp only at h
          by_cases hww : isWordAt s (k' + 1 + 4) = true
          · rw [if_pos hww] at h; exact absurd h (by simp)
          · rw [if_neg hww] at h
            refine ⟨k', c, rfl, ec, by simpa using hw.1, by simpa using hw.2, h, ?_⟩
            simpa using hww
  
theorem yearTokenAt_intro {s : List Char} {k' : Nat} {c : Char} {y : Nat}
    (ec : s[k']? = some c) (hw : isWordChar c = false) (hs : c ≠ '/')
    (hg : yearGroup? s (k' + 1) = some y) (ht : isWordAt s (k' + 1 + 4) = false) :
    yearTokenAt s (k' + 1) = some y := by
  simp [yearTokenAt, ec, hw, hs, hg, ht]

theorem yearTokenAt_len {s : List Char} {k y : Nat} (h : yearTokenAt s k = some y) :
    k + 4 ≤ s.length := by
  obtain ⟨k', c, rfl, _, _, _, hg, _⟩ := yearTokenAt_elim h
  exact yearGroup?_len hg

theorem yearTokenAt_none_of_word {s : List Char} {k' : Nat}
    (h : isWordAt s k' = true) : yearTokenAt s (k' + 1) = none := by
  unfold isWordAt at h
  cases ec : s[k']? with
  | none => rw [ec] at h; exact absurd h (by simp)
  | some c =>
    rw [ec] at h
    simp only at h
    simp [yearTokenAt, ec, h]

theorem yearCandAt_elim {s : List Char} {k y : Nat} (h : yearCandAt s k = some y) :
    wordBoundaryAt s k = true ∧ yearGroup? s k = some y ∧ wordBoundaryAt s (k + 4) = true := by
  unfold yearCandAt at h
  by_cases hb : wordBoundaryAt s k = true
  · rw [if_pos hb] at h
    cases eg : yearGroup? s k with
    | none => rw [eg] at h; exact absurd h (by simp)
    | some y0 =>
      rw [eg] at h
      simp only at h
      by_cases hb2 : wordBoundaryAt s (k + 4) = true
      · rw [if_pos hb2] at h
        exact ⟨hb, h, hb2⟩
      · rw [if_neg hb2] at h; exact absurd h (by simp)
  · rw [if_neg hb] at h; exact absurd h (by simp)

theorem yearCandAt_intro {s : List Char} {k y : Nat}
    (hb : wordBoundaryAt s k = true) (hg : yearGroup? s k = some y)
    (hb2 : wordBoundaryAt s (k + 4) = true) : yearCandAt s k = some y := by
  simp [yearCandAt, hb, hg, hb2]

theorem wordBoundaryAt_succ_elim {s : List Char} {k' : Nat}
    (h : wordBoundaryAt s (k' + 1) = true) (hw : isWordAt s (k' + 1) = true) :
    isWordAt s k' = false := by
  unfold wordBoundaryAt at h
  simp only [hw, bne_iff_ne] at h
  cases hk : isWordAt s k' with
  | false => rfl
  | true => rw [hk] at h; exact absurd rfl h

theorem wordBoundaryAt_succ_intro {s : List Char} {k' : Nat}
    (h1 : isWordAt s k' = false) (h2 : isWordAt s (k' + 1) = true) :
    wordBoundaryAt s (k' + 1) = true := by
  unfold wordBoundaryAt
  simp only [h1, h2]
  rfl

theorem wordBoundaryAt_succ_right {s : List Char} {k' : Nat}
    (h : wordBoundaryAt s (k' + 1) = true) (hw : isWordAt s k' = true) :
    isWordAt s (k' + 1) = false := by
  unfold wordBoundaryAt at h
  simp only [hw, bne_iff_ne] at h
  cases hk : isWordAt s (k' + 1) with
  | false => rfl
  | true => rw [hk] at h; exact absurd rfl h

theorem wordBoundaryAt_succ_intro2 {s : List Char} {k' : Nat}
    (h1 : isWordAt s k' = true) (h2 : isWordAt s (k' + 1) = false) :
    wordBoundaryAt s (k' + 1) = true := by
  unfold wordBoundaryAt
  simp only [h1, h2]
  rfl

theorem yearTokenAt_cand {s : List Char} {k y : Nat} (h : yearTokenAt s k = some y) :
    ∃ k', k = k' + 1 ∧ nonSlashAt s k' = true ∧ yearCandAt s (k' + 1) = some y := by
  obtain ⟨k', c, rfl, ec, hw, hs, hg, ht⟩ := yearTokenAt_elim h
  have hnz : nonSlashAt s k' = true := by simp [nonSlashAt, ec, hs]
  have hw0 : isWordAt s (k' + 1) = true := by
    simpa using yearGroup?_isWordAt hg 0 (by omega)
  have hw3 : isWordAt s (k' + 1 + 3) = true := by
    simpa using yearGroup?_isWordAt hg 3 (by omega)
  have hleft : isWordAt s k' = false := by simp [isWordAt, ec, hw]
  have hb1 : wordBoundaryAt s (k' + 1) = true := wordBoundaryAt_succ_intro hleft hw0
  have hb2 : wordBoundaryAt s (k' + 1 + 4) = true := by
    have e : k' + 1 + 4 = (k' + 1 + 3) + 1 := by omega
    rw [e]
    refine wordBoundaryAt_succ_intro2 hw3 ?_
    rw [← e]
    exact ht
  exact ⟨k', rfl, hnz, yearCandAt_intro hb1 hg hb2⟩

theorem yearCandAt_token {s : List Char} {k' y : Nat}
    (h : yearCandAt s (k' + 1) = some y) (hnz : nonSlashAt s k' = true) :
    yearTokenAt s (k' + 1) = some y := by
  obtain ⟨hb1, hg, hb2⟩ := yearCandAt_elim h
  have hw0 : isWordAt s (k' + 1) = true := by
    simpa using yearGroup?_isWordAt hg 0 (by omega)
  have hw3 : isWordAt s (k' + 1 + 3) = true := by
    simpa using yearGroup?_isWordAt hg 3 (by omega)
  have hleft : isWordAt s k' = false := wordBoundaryAt_succ_elim hb1 hw0
  have hright : isWordAt s (k' + 1 + 4) = false := by
    have e : k' + 1 + 4 = (k' + 1 + 3) + 1 := by omega
    rw [e] at hb2 ⊢
    exact wordBoundaryAt_succ_right hb2 hw3
  unfold nonSlashAt at hnz
  cases ec : s[k']? with
  | none => rw [ec] at hnz; exact absurd hnz (by simp)
  | some c =>
    rw [ec] at hnz
    simp only [bne_iff_ne] at hnz
    have hwc : isWordChar c = false := by
      unfold isWordAt at hleft
      rw [ec] at hleft
      simpa using hleft
    exact yearTokenAt_intro ec hwc hnz hg hright

theorem noSlashSeg_elem {s : List Char} {p k : Nat} (h : noSlashSeg s p k = true)
    {i : Nat} (h1 : p ≤ i) (h2 : i < k) : nonSlashAt s i = true := by
  unfold noSlashSeg at h
  rw [List.all_eq_true] at h
  have hm : i - p ∈ List.range (k - p) := List.mem_range.mpr (by omega)
  have := h _ hm
  simpa [show p + (i - p) = i by omega] using this

theorem noSlashSeg_single {s : List Char} {k : Nat} (h : nonSlashAt s k = true) :
    noSlashSeg s k (k + 1) = true := by
  unfold noSlashSeg
  simp only [show k + 1 - k = 1 by omega]
  simp only [List.range_succ, List.range_zero, List.nil_append, List.all_cons, List.all_nil]
  simpa using h

theorem greedyYear_some_elim {s : List Char} {p : Nat} :
    ∀ L {e y}, greedyYear s p L = some (e, y) →
      ∃ k, p < k ∧ k ≤ p + L ∧ noSlashSeg s p k = true ∧ yearCandAt s k = some y ∧
        e = k + 4 ∧
        ∀ k', k < k' → k' ≤ p + L → noSlashSeg s p k' = true → yearCandAt s k' = none := by
  intro L
  induction L with
  | zero => intro e y h; exact absurd h (by simp [greedyYear])
  | succ n ih =>
    intro e y h
    by_cases hs : noSlashSeg s p (p + n + 1) = true
    · cases hc : yearCandAt s (p + n + 1) with
      | some y0 =>
        simp only [greedyYear, hs, hc, if_true] at h
        simp only [Option.some_inj, Prod.mk.injEq] at h
        obtain ⟨he, hy⟩ := h
        subst hy
        refine ⟨p + n + 1, by omega, by omega, hs, hc, by omega, ?_⟩
        intro k' h1 h2
        omega
      | none =>
        simp only [greedyYear, hs, hc, if_true] at h
        obtain ⟨k, hk1, hk2, hk3, hk4, hk5, hk6⟩ := ih h
        refine ⟨k, hk1, by omega, hk3, hk4, hk5, ?_⟩
        intro k' h1 h2 hns
        by_cases hkk : k' = p + n + 1
        · subst hkk; exact hc
        · exact hk6 k' h1 (by omega) hns
    · simp only [greedyYear] at h
      rw [if_neg hs] at h
      obtain ⟨k, hk1, hk2, hk3, hk4, hk5, hk6⟩ := ih h
      refine ⟨k, hk1, by omega, hk3, hk4, hk5, ?_⟩
      intro k' h1 h2 hns
      by_cases hkk : k' = p + n + 1
      · subst hkk; exact absurd hns hs
      · exact hk6 k' h1 (by omega) hns

theorem greedyYear_none_elim {s : List Char} {p : Nat} :
    ∀ L, greedyYear s p L = none →
      ∀ k, p < k → k ≤ p + L → noSlashSeg s p k = true → yearCandAt s k = none := by
  intro L
  induction L with
  | zero => intro _ k h1 h2 _; exact absurd h1 (by omega)
  | succ n ih =>
    intro h k h1 h2 h3
    by_cases hs : noSlashSeg s p (p + n + 1) = true
    · cases hc : yearCandAt s (p + n + 1) with
      | some y0 =>
        simp only [greedyYear, hs, hc, if_true] at h
        exact absurd h (by simp)
      | none =>
        simp only [greedyYear, hs, hc, if_true] at h
        by_cases hk : k = p + n + 1
        · subst hk; exact hc
        · exact ih h k h1 (by omega) h3
    · simp only [greedyYear] at h
      rw [if_neg hs] at h
      by_cases hk : k = p + n + 1
      · subst hk; exact absurd h3 hs
      · exact ih h k h1 (by omega) h3

theorem finditerYearAux_spec (s : List Char) :
    ∀ fuel p, s.length + 1 ≤ fuel + p →
      ((finditerYearAux s fuel p).getLast? = none →
        ∀ k, p < k → yearTokenAt s k = none) ∧
      (∀ e y, (finditerYearAux s fuel p).getLast? = some (e, y) →
        ∃ k, p < k ∧ yearTokenAt s k = some y ∧
          ∀ j y', p < j → yearTokenAt s j = some y' → j ≤ k) := by
  intro fuel
  induction fuel with
  | zero =>
    intro p hp
    constructor
    · intro _ k hk
      cases ht : yearTokenAt s k with
      | none => rfl
      | some y => have := yearTokenAt_len ht; omega
    · intro e y h
      simp [finditerYearAux] at h
  | succ n ih =>
    intro p hp
    by_cases hlt : p < s.length
    case neg =>
      have hnil : finditerYearAux s (n + 1) p = [] := by
        simp [finditerYearAux, hlt]
      constructor
      · intro _ k hk
        cases ht : yearTokenAt s k with
        | none => rfl
        | some y => have := yearTokenAt_len ht; omega
      · intro e y h
        rw [hnil] at h
        simp at h
    case pos =>
      cases hg : greedyYear s p (s.length - p) with
      | none =>
        have heq : finditerYearAux s (n + 1) p = finditerYearAux s n (p + 1) := by
          simp [finditerYearAux, hlt, hg]
        have hnotok : yearTokenAt s (p + 1) = none := by
          cases ht : yearTokenAt s (p + 1) with
          | none => rfl
          | some y =>
            obtain ⟨k', hk', hnz, hcand⟩ := yearTokenAt_cand ht
            have hk'p : k' = p := by omega
            rw [hk'p] at hnz hcand
            have hlen := yearTokenAt_len ht
            have := greedyYear_none_elim _ hg (p + 1) (by omega) (by omega)
              (noSlashSeg_single hnz)
            rw [this] at hcand
            exact absurd hcand (by simp)
        obtain ⟨ih1, ih2⟩ := ih (p + 1) (by omega)
        constructor
        · intro hnone k hk
          rw [heq] at hnone
          by_cases hkp : k = p + 1
          · subst hkp; exact hnotok
          · exact ih1 hnone k (by omega)
        · intro e y h
          rw [heq] at h
          obtain ⟨k, hk1, hk2, hk3⟩ := ih2 e y h
          refine ⟨k, by omega, hk2, ?_⟩
          intro j y' hj ht
          by_cases hjp : j = p + 1
          · subst hjp; rw [hnotok] at ht; exact absurd ht (by simp)
          · exact hk3 j y' (by omega) ht
      | some ey =>
        obtain ⟨e0, y0⟩ := ey
        obtain ⟨k0, hk01, hk02, hk03, hk04, hk05, hk06⟩ := greedyYear_some_elim _ hg
        have hk0len : k0 ≤ s.length := by omega
        have heq : finditerYearAux s (n + 1) p = (e0, y0) :: finditerYearAux s n e0 := by
          simp [finditerYearAux, hlt, hg]
        have hnz : nonSlashAt s (k0 - 1) = true := noSlashSeg_elem hk03 (by omega) (by omega)
        have htok : yearTokenAt s k0 = some y0 := by
          have e1 : k0 = (k0 - 1) + 1 := by omega
          rw [e1]
          refine yearCandAt_token ?_ hnz
          rw [← e1]
          exact hk04
        have hgroup : yearGroup? s k0 = some y0 := (yearCandAt_elim hk04).2.1
        have hA : ∀ j, k0 < j → j ≤ e0 → yearTokenAt s j = none := by
          intro j hj1 hj2
          have hj : j = (j - 1) + 1 := by omega
          rw [hj]
          apply yearTokenAt_none_of_word
          have hidx : j - 1 = k0 + (j - 1 - k0) := by omega
          rw [hidx]
          exact yearGroup?_isWordAt hgroup (j - 1 - k0) (by omega)
        obtain ⟨ih1, ih2⟩ := ih e0 (by omega)
        rw [heq]
        cases htail : (finditerYearAux s n e0).getLast? with
        | none =>
          have htl : finditerYearAux s n e0 = [] := List.getLast?_eq_none_iff.mp htail
          have hlast : ((e0, y0) :: finditerYearAux s n e0).getLast? = some (e0, y0) := by
            rw [htl]; rfl
          constructor
          · intro hnone
            rw [hlast] at hnone
            exact absurd hnone (by simp)
          · intro e y h
            rw [hlast] at h
            simp only [Option.some_inj, Prod.mk.injEq] at h
            obtain ⟨he, hy⟩ := h
            subst hy
            refine ⟨k0, by omega, htok, ?_⟩
            intro j y' hj ht
            by_cases hje : j ≤ k0
            · exact hje
            · by_cases hje2 : j ≤ e0
              · rw [hA j (by omega) hje2] at ht; exact absurd ht (by simp)
              · rw [ih1 htail j (by omega)] at ht; exact absurd ht (by simp)
        | some ey'
        =>
          obtain ⟨e', y'⟩ := ey'
          have hlast : ((e0, y0) :: finditerYearAux s n e0).getLast? = some (e', y') := by
            cases htl : finditerYearAux s n e0 with
            | nil => rw [htl] at htail; simp at htail
            | cons a l =>
              rw [htl] at htail
              rw [List.getLast?_cons_cons, htail]
          obtain ⟨k', hk'1, hk'2, hk'3⟩ := ih2 e' y' htail
          constructor
          · intro hnone
            rw [hlast] at hnone
            exact absurd hnone (by simp)
          · intro e y h
            rw [hlast] at h
            simp only [Option.some_inj, Prod.mk.injEq] at h
            obtain ⟨he, hy⟩ := h
            subst hy
            refine ⟨k', by omega, hk'2, ?_⟩
            intro j yj hj ht
            by_cases hj1 : j ≤ k0
            · omega
            · by_cases hj2 : j ≤ e0
              · rw [hA j (by omega) hj2] at ht; exact absurd ht (by simp)
              · exact hk'3 j yj (by omega) ht

/-- C1: For every source path, `get_year` returns an integer in
`[1921, 2159]` matched as a standalone year token that is not at the very
start of the folder+file string and not immediately preceded by a path
separator; when the string holds more than one such token the right-most one
is returned, and when it holds none the result is `none`. -/
theorem c1_get_year_rightmost (folder file : String) :
    (∀ y, get_year folder file = some y ↔
      (∃ k, yearTokenAt ((folder ++ "/" ++ file).toList) k = some y ∧
        ∀ j y', yearTokenAt ((folder ++ "/" ++ file).toList) j = some y' → j ≤ k)) ∧
    (get_year folder file = none ↔
      ∀ k, yearTokenAt ((folder ++ "/" ++ file).toList) k = none) ∧
    (∀ y, get_year folder file = some y → 1921 ≤ y ∧ y ≤ 2159) := by
  obtain ⟨sp1, sp2⟩ :=
    finditerYearAux_spec ((folder ++ "/" ++ file).toList)
      (((folder ++ "/" ++ file).toList).length + 1) 0 (by omega)
  cases hlast : (finditerYear ((folder ++ "/" ++ file).toList)).getLast? with
  | none =>
    have hgy : get_year folder file = none := by
      unfold get_year
      rw [hlast]
    have hall : ∀ k, yearTokenAt ((folder ++ "/" ++ file).toList) k = none := by
      intro k
      cases k with
      | zero => rfl
      | succ k' => exact sp1 hlast (k' + 1) (by omega)
    refine ⟨?_, ?_, ?_⟩
    · intro y
      constructor
      · intro h; rw [hgy] at h; exact absurd h (by simp)
      · rintro ⟨k, hk, -⟩; rw [hall k] at hk; exact absurd hk (by simp)
    · exact ⟨fun _ => hall, fun _ => hgy⟩
    · intro y h; rw [hgy] at h; exact absurd h (by simp)
  | some ey =>
    obtain ⟨e, y0⟩ := ey
    have hgy : get_year folder file = some y0 := by
      unfold get_year
      rw [hlast]
    obtain ⟨k0, hk01, hk02, hk03⟩ := sp2 e y0 hlast
    refine ⟨?_, ?_, ?_⟩
    · intro y
      constructor
      · intro h
        rw [hgy] at h
        have hy : y = y0 := (Option.some_inj.mp h).symm
        subst hy
        refine ⟨k0, hk02, ?_⟩
        intro j y' hj
        cases j with
        | zero => rw [yearTokenAt_zero] at hj; exact absurd hj (by simp)
        | succ j' => exact hk03 (j' + 1) y' (by omega) hj
      · rintro ⟨k, hk1, hk2⟩
        have h1 : k0 ≤ k := hk2 k0 y0 hk02
        have h2 : k ≤ k0 := by
          cases k with
          | zero => rw [yearTokenAt_zero] at hk1; exact absurd hk1 (by simp)
          | succ k' => exact hk03 (k' + 1) y (by omega) hk1
        have hkk : k = k0 := by omega
        subst hkk
        have hy : y0 = y := Option.some_inj.mp (hk02.symm.trans hk1)
        rw [hgy, hy]
    · constructor
      · intro h; rw [hgy] at h; exact absurd h (by simp)
      · intro hall
        have := hall k0
        rw [hk02] at this
        exact absurd this (by simp)
    · intro y h
      rw [hgy] at h
      have hy : y = y0 := (Option.some_inj.mp h).symm
      subst hy
      obtain ⟨k', c, _, _, _, _, hg, _⟩ := yearTokenAt_elim hk02
      exact yearGroup?_range hg

/-- Media enum of `fylmlib.enums.Media` (bluray, webdl, hdtv, dvd, sdtv,
unknown), as consumed by `parser.get_media`. -/
inductive Media where
  | BLURAY
  | WEBDL
  | HDTV
  | DVD
  | SDTV
  | UNKNOWN
deriving DecidableEq, Repr

/-- One alternative of `patterns.media`: the literal (given lowercase) must
match case-insensitively at `k` and be followed by the pattern's closing
word boundary `\b`. -/
def mediaTok (s : List Char) (k : Nat) (lit : List Char) : Bool :=
  litCIAt s k lit && wordBoundaryAt s (k + lit.length)

/-- `patterns.media` attempted at position `k`:
`\b(?:(?P<bluray>blu-?ray|bdremux|bdrip)|(?P<webdl>web-?dl|webrip|amzn|nf|hulu|dsnp|atvp)|(?P<hdtv>hdtv)|(?P<dvd>dvd)|(?P<sdtv>sdtv))\b`
with `re.I`.  The leading `\b` is shared; the alternatives are tried in the
pattern's order (the greedy `-?` first with the dash, then without), and the
matched named group determines the category.  Exactly one named group can be
set, so returning the category directly models the `if match.group(...)`
chain of `parser.get_media`. -/
def mediaMatchAt (s : List Char) (k : Nat) : Option Media :=
  if wordBoundaryAt s k then
    if mediaTok s k ['b', 'l', 'u', '-', 'r', 'a', 'y'] || mediaTok s k ['b', 'l', 'u', 'r', 'a', 'y'] ||
       mediaTok s k ['b', 'd', 'r', 'e', 'm', 'u', 'x'] || mediaTok s k ['b', 'd', 'r', 'i', 'p'] then some Media.BLURAY
    else if mediaTok s k ['w', 'e', 'b', '-', 'd', 'l'] || mediaTok s k ['w', 'e', 'b', 'd', 'l'] ||
       mediaTok s k ['w', 'e', 'b', 'r', 'i', 'p'] || mediaTok s k ['a', 'm', 'z', 'n'] ||
       mediaTok s k ['n', 'f'] || mediaTok s k ['h', 'u', 'l', 'u'] ||
       mediaTok s k ['d', 's', 'n', 'p'] || mediaTok s k ['a', 't', 'v', 'p'] then some Media.WEBDL
    else if mediaTok s k ['h', 'd', 't', 'v'] then some Media.HDTV
    else if mediaTok s k ['d', 'v', 'd'] then some Media.DVD
    else if mediaTok s k ['s', 'd', 't', 'v'] then some Media.SDTV
    else none
  else none

/-- `parser.get_media`: `re.search(patterns.media, f'{folder}/{file}')`
(the left-most position where the pattern matches wins), then the category
of the named group that matched; no match yields `Media.UNKNOWN`. -/
def get_media (folder file : String) : Media :=
  match searchFrom (fun k => mediaMatchAt ((folder ++ "/" ++ file).toList) k) 0
      (((folder ++ "/" ++ file).toList).length + 1) with
  | some m => m
  | none => Media.UNKNOWN

example : get_media "Movie.2016.1080p.BluRay.x264" "m.mkv" = Media.BLURAY := by decide
example : get_media "Movie.2016.HDTV" "m.mkv" = Media.HDTV := by decide
example : get_media "Movie.2016" "m.mkv" = Media.UNKNOWN := by decide
example : get_media "Movie.2016.HDTV.BluRay" "m.mkv" = Media.HDTV := by decide
example : get_media "Movie.WEB-DL" "m.mkv" = Media.WEBDL := by decide

theorem litCIAt_lt_length {s : List Char} {k : Nat} {c : Char} {rest : List Char}
    (h : litCIAt s k (c :: rest) = true) : k < s.length := by
  unfold litCIAt at h
  cases e : s[k]? with
  | none => rw [e] at h; exact absurd h (by simp)
  | some d =>
    by_contra hk
    rw [List.getElem?_eq_none (by omega)] at e
    exact absurd e (by simp)

theorem mediaMatchAt_none_of_ge {s : List Char} {k : Nat} (h : s.length ≤ k) :
    mediaMatchAt s k = none := by
  have e : s[k]? = none := List.getElem?_eq_none h
  simp [mediaMatchAt, mediaTok, litCIAt, e]

/-- C2 (amended): `get_media` returns the category of the left-most media
token in the folder+file string — the bluray > webdl > hdtv > dvd > sdtv
alternation order decides only between alternatives starting at the same
position, not across the string — and `Media.UNKNOWN` when no media token
occurs at any position. -/
theorem c2_get_media_leftmost (folder file : String) :
    (∀ c k, mediaMatchAt ((folder ++ "/" ++ file).toList) k = some c →
      (∀ j, j < k → mediaMatchAt ((folder ++ "/" ++ file).toList) j = none) →
      get_media folder file = c) ∧
    ((∀ k, mediaMatchAt ((folder ++ "/" ++ file).toList) k = none) →
      get_media folder file = Media.UNKNOWN) := by
  constructor
  · intro c k hk hmin
    have hlt : k < ((folder ++ "/" ++ file).toList).length := by
      by_contra hge
      rw [mediaMatchAt_none_of_ge (by omega)] at hk
      exact absurd hk (by simp)
    unfold get_media
    rw [searchFrom_eq_some _ (((folder ++ "/" ++ file).toList).length + 1) 0 k c
      (by omega) (by omega) hk (fun j _ h2 => hmin j h2)]
  · intro hall
    unfold get_media
    rw [searchFrom_eq_none _ (((folder ++ "/" ++ file).toList).length + 1) 0
      (fun j _ _ => hall j)]

/-- C2 counterexample: the folder+file string
`Test.Movie.2004.HDTV/Test.Movie.2004.Bluray.mkv` contains both an hdtv
token and a bluray token, yet `get_media` returns `Media.HDTV` (the
left-most match), not `Media.BLURAY` as the precedence-order claim
predicts. -/
theorem c2_media_precedence_cex :
    get_media "Test.Movie.2004.HDTV" "Test.Movie.2004.Bluray.mkv" = Media.HDTV ∧
    get_media "Test.Movie.2004.HDTV" "Test.Movie.2004.Bluray.mkv" ≠ Media.BLURAY ∧
    (List.range ((("Test.Movie.2004.HDTV" ++ "/" ++ "Test.Movie.2004.Bluray.mkv").toList).length)).any
      (fun k => mediaMatchAt (("Test.Movie.2004.HDTV" ++ "/" ++ "Test.Movie.2004.Bluray.mkv").toList) k
        == some Media.BLURAY) = true ∧
    (List.range ((("Test.Movie.2004.HDTV" ++ "/" ++ "Test.Movie.2004.Bluray.mkv").toList).length)).any
      (fun k => mediaMatchAt (("Test.Movie.2004.HDTV" ++ "/" ++ "Test.Movie.2004.Bluray.mkv").toList) k
        == some Media.HDTV) = true := by
  refine ⟨by decide, by decide, by decide, by decide⟩

theorem c2_get_media_leftmost_witness :
    get_media "A.BluRay.2000" "b.mkv" = Media.BLURAY :=
  (c2_get_media_leftmost "A.BluRay.2000" "b.mkv").1 Media.BLURAY 2 (by decide)
    (by decide)

/-- Case-insensitive test that `lit` is a prefix of `s` (ASCII folding, the
model of Python's `re.I` literal matching and `str.lower()` comparisons). -/
def isPrefixCI : List Char → List Char → Bool
  | [], _ => true
  | _ :: _, [] => false
  | c :: cs, d :: ds => d.toLower == c.toLower && isPrefixCI cs ds

/-- The literal `', the'` of the `re.search` and `re.sub` calls on lines
77–78 of `parser.get_title`. -/
def theLit : List Char := [',', ' ', 't', 'h', 'e']

/-- `re.search(lit, s, re.I)` for a literal pattern, as a Boolean: the
literal occurs case-insensitively somewhere in `s`. -/
def containsCI (lit : List Char) : List Char → Bool
  | [] => isPrefixCI lit []
  | c :: rest => isPrefixCI lit (c :: rest) || containsCI lit rest

/-- `re.sub(lit, repl, s, flags=re.I)` for a literal pattern: replace every
non-overlapping occurrence, scanning left to right.  `fuel` dominates the
length of `s`. -/
def subAllCIAux (lit repl : List Char) : Nat → List Char → List Char
  | 0, s => s
  | _ + 1, [] => []
  | fuel + 1, c :: rest =>
    if isPrefixCI lit (c :: rest) then
      repl ++ subAllCIAux lit repl fuel (rest.drop (lit.length - 1))
    else
      c :: subAllCIAux lit repl fuel rest

def subAllCI (lit repl s : List Char) : List Char :=
  subAllCIAux lit repl (s.length + 1) s

/-- Lines 77–78 of `parser.get_title`: when `re.search(r', the', title, re.I)`
matches anywhere, the title becomes `f"The {re.sub(r', the', '', title, flags=re.I)}"`,
i.e. every `', the'` occurrence is removed and `"The "` is prepended;
otherwise the title is unchanged. -/
def the_suffix_step (title : List Char) : List Char :=
  if containsCI theLit title then
    ('T' :: 'h' :: 'e' :: ' ' :: []) ++ subAllCI theLit [] title
  else title

/-- Case-insensitive suffix test, used to state which titles *end* in
`', the'`. -/
def endsWithCI (lit s : List Char) : Bool :=
  decide (lit.length ≤ s.length) && isPrefixCI lit (s.drop (s.length - lit.length))

example : the_suffix_step ("Matrix, The".toList) = "The Matrix".toList := by decide
example : the_suffix_step ("Heat".toList) = "Heat".toList := by decide

/-- C3 (amended): the `', the'` normalization of `get_title` fires whenever
`', the'` occurs anywhere in the title (case-insensitively): every
occurrence is removed and `"The "` is prepended.  A title with no
occurrence is unchanged, and a title ending in `', The'` is normalized as
the spec intends (`"Matrix, The"` becomes `"The Matrix"`), but the step is
not restricted to a trailing suffix. -/
theorem c3_the_step_amended :
    (∀ title : List Char, containsCI theLit title = false →
      the_suffix_step title = title) ∧
    the_suffix_step ("Matrix, The".toList) = "The Matrix".toList := by
  constructor
  · intro title h
    simp [the_suffix_step, h]
  · decide

/-- C3 counterexample: `"Now, then"` does not end in `', the'`, yet the
step rewrites it to `"The Nown"` because the interior `', the'` occurrence
(inside `", then"`) triggers the substitution. -/
theorem c3_interior_the_cex :
    endsWithCI theLit ("Now, then".toList) = false ∧
    the_suffix_step ("Now, then".toList) = "The Nown".toList ∧
    the_suffix_step ("Now, then".toList) ≠ "Now, then".toList := by
  refine ⟨by decide, by decide, by decide⟩

/-- The prefix-strip loop of `parser.get_title` (lines 68–71): every
configured prefix is tested, in order, against the *current* title
(`title.lower().startswith(prefix.lower())`), and a matching prefix is cut
off (`title = title[len(prefix):]`); the loop continues after a match. -/
def strip_prefixes (ps : List (List Char)) (t : List Char) : List Char :=
  ps.foldl (fun title p => if isPrefixCI p title then title.drop p.length else title) t

/-- The claim's reading, written from its words for comparison: the first
configured prefix that case-insensitively matches a leading substring wins
and no further prefix is stripped after it. -/
def stripFirstMatchingOnly : List (List Char) → List Char → List Char
  | [], t => t
  | p :: ps, t => if isPrefixCI p t then t.drop p.length else stripFirstMatchingOnly ps t

theorem isPrefixCI_append_self (p x : List Char) : isPrefixCI p (p ++ x) = true := by
  induction p with
  | nil => rfl
  | cons c cs ih => simp [isPrefixCI, ih]

/-- C4 (amended): the prefix-strip loop removes *every* prefix that matches
in configured order, each later prefix being tested against the already
stripped title: running the loop on `l1 ++ l2` is running it on `l1` and
then on `l2`, a title no configured prefix matches is unchanged, and a
title carrying two configured prefixes in order loses both in one pass. -/
theorem c4_strip_loop_amended :
    (∀ l1 l2 (t : List Char),
      strip_prefixes (l1 ++ l2) t = strip_prefixes l2 (strip_prefixes l1 t)) ∧
    (∀ l (t : List Char), (∀ p ∈ l, isPrefixCI p t = false) → strip_prefixes l t = t) ∧
    (∀ (p1 p2 t : List Char), strip_prefixes [p1, p2] (p1 ++ (p2 ++ t)) = t) := by
  refine ⟨?_, ?_, ?_⟩
  · intro l1 l2 t
    simp [strip_prefixes, List.foldl_append]
  · intro l
    induction l with
    | nil => intro t _; rfl
    | cons p ps ih =>
      intro t h
      have hp : isPrefixCI p t = false := h p (by simp)
      simp only [strip_prefixes, List.foldl_cons, hp, Bool.false_eq_true, if_false]
      exact ih t (fun q hq => h q (by simp [hq]))
  · intro p1 p2 t
    simp only [strip_prefixes, List.foldl_cons, List.foldl_nil,
      isPrefixCI_append_self, if_true, List.drop_left]

/-- C4 counterexample: with configured prefixes `["aaa-", "bbb-"]` and
title `"aaa-bbb-Movie"`, the loop strips *both* prefixes and yields
`"Movie"`, while the claim's first-match-only reading would stop after
`"aaa-"` and yield `"bbb-Movie"`. -/
theorem c4_single_strip_cex :
    strip_prefixes ["aaa-".toList, "bbb-".toList] ("aaa-bbb-Movie".toList) = "Movie".toList ∧
    stripFirstMatchingOnly ["aaa-".toList, "bbb-".toList] ("aaa-bbb-Movie".toList) = "bbb-Movie".toList := by
  refine ⟨by decide, by decide⟩

/-- `\d{4}` at position `p` of `patterns.proper`: four consecutive digits. -/
def digit4At (s : List Char) (p : Nat) : Bool :=
  match s[p]?, s[p + 1]?, s[p + 2]?, s[p + 3]? with
  | some a, some b, some c, some d => a.isDigit && b.isDigit && c.isDigit && d.isDigit
  | _, _, _, _ => false

/-- `\b(?P<proper>proper)\b` of `patterns.proper` at position `q` (`re.I`). -/
def properTokenAt (s : List Char) (q : Nat) : Bool :=
  wordBoundaryAt s q && litCIAt s q ['p', 'r', 'o', 'p', 'e', 'r'] &&
    wordBoundaryAt s (q + 6)

/-- A character is present at `i` and is not a newline: what the regex
`.` (without `re.DOTALL`) may consume. -/
def nonNewlineAt (s : List Char) (i : Nat) : Bool :=
  match s[i]? with
  | some c => c != '\n'
  | none => false

/-- The lazy gap `.*?` of `patterns.proper` followed by the proper token:
from `i`, succeed at the first position where the token matches, consuming
only non-newline characters on the way (`.` does not match `\n`).  `fuel`
dominates the remaining scan. -/
def properAfter (s : List Char) : Nat → Nat → Bool
  | _, 0 => false
  | i, fuel + 1 =>
    properTokenAt s i || (nonNewlineAt s i && properAfter s (i + 1) fuel)

/-- `parser.is_proper`: whether `re.search(patterns.proper, f'{folder}/{file}')`
(pattern `\d{4}.*?\b(?P<proper>proper)\b`, `re.I`) finds a match. -/
def is_proper (folder file : String) : Bool :=
  (List.range (((folder ++ "/" ++ file).toList).length)).any
    (fun p => digit4At ((folder ++ "/" ++ file).toList) p &&
      properAfter ((folder ++ "/" ++ file).toList) (p + 4)
        ((((folder ++ "/" ++ file).toList)).length + 1))

example : is_proper "Rogue.One.2016.PROPER.1080p" "f.mkv" = true := by decide
example : is_proper "Movie.PROPER" "f.mkv" = false := by decide
example : is_proper "2016proper" "f.mkv" = false := by decide

theorem properTokenAt_lt_length {s : List Char} {q : Nat}
    (h : properTokenAt s q = true) : q < s.length := by
  unfold properTokenAt at h
  simp only [Bool.and_eq_true] at h
  exact litCIAt_lt_length h.1.2

theorem digit4At_lt_length {s : List Char} {p : Nat} (h : digit4At s p = true) :
    p < s.length := by
  unfold digit4At at h
  cases e : s[p]? with
  | some a =>
    by_contra hk
    rw [List.getElem?_eq_none (by omega)] at e
    exact absurd e (by simp)
  | none => rw [e] at h; exact absurd h (by simp)

theorem nonNewlineAt_elim {s : List Char} {i : Nat} (h : nonNewlineAt s i = true) :
    s[i]? ≠ some '\n' := by
  unfold nonNewlineAt at h
  cases e : s[i]? with
  | none => simp
  | some c =>
    rw [e] at h
    simp only [bne_iff_ne] at h
    simp [h]

theorem nonNewlineAt_intro {s : List Char} {i : Nat} (h1 : i < s.length)
    (h2 : s[i]? ≠ some '\n') : nonNewlineAt s i = true := by
  cases e : s[i]? with
  | none =>
    have := List.getElem?_eq_none_iff.mp e
    omega
  | some c =>
    have hc : c ≠ '\n' := by
      intro hcc
      subst hcc
      exact h2 e
    simp [nonNewlineAt, e, hc]

theorem properAfter_exists {s : List Char} :
    ∀ fuel i, properAfter s i fuel = true →
      ∃ q, i ≤ q ∧ (∀ j, i ≤ j → j < q → s[j]? ≠ some '\n') ∧
        properTokenAt s q = true := by
  intro fuel
  induction fuel with
  | zero => intro i h; exact absurd h (by simp [properAfter])
  | succ n ih =>
    intro i h
    simp only [properAfter, Bool.or_eq_true, Bool.and_eq_true] at h
    rcases h with h | ⟨hnl, h⟩
    · exact ⟨i, Nat.le_refl _, fun j h1 h2 => by omega, h⟩
    · obtain ⟨q, hq1, hq2, hq3⟩ := ih (i + 1) h
      refine ⟨q, by omega, ?_, hq3⟩
      intro j h1 h2
      by_cases hj : j = i
      · subst hj; exact nonNewlineAt_elim hnl
      · exact hq2 j (by omega) h2

theorem properAfter_of {s : List Char} {q : Nat} (htok : properTokenAt s q = true) :
    ∀ fuel i, i ≤ q → q < i + fuel →
      (∀ j, i ≤ j → j < q → s[j]? ≠ some '\n') → properAfter s i fuel = true := by
  intro fuel
  induction fuel with
  | zero => intro i h1 h2; omega
  | succ n ih =>
    intro i h1 h2 hpath
    simp only [properAfter, Bool.or_eq_true, Bool.and_eq_true]
    by_cases hi : properTokenAt s i = true
    · exact Or.inl hi
    · have hiq : i < q := by
        rcases Nat.lt_or_ge i q with h | h
        · exact h
        · have : i = q := by omega
          subst this
          exact absurd htok hi
      have hlen : q < s.length := properTokenAt_lt_length htok
      refine Or.inr ⟨nonNewlineAt_intro (by omega) (hpath i (Nat.le_refl _) hiq), ?_⟩
      exact ih (i + 1) (by omega) (by omega) (fun j hj1 hj2 => hpath j (by omega) hj2)

/-- C5 (amended): `is_proper` is true iff the folder+file string holds a
standalone `proper` token (case-insensitive) preceded somewhere earlier by
a four-digit sequence, *with no newline between the digits and the token*
(the gap of `patterns.proper` is `.*?`, and `.` does not cross newlines). -/
theorem c5_is_proper_iff (folder file : String) :
    is_proper folder file = true ↔
      ∃ p q, digit4At ((folder ++ "/" ++ file).toList) p = true ∧ p + 4 ≤ q ∧
        (∀ i, p + 4 ≤ i → i < q → ((folder ++ "/" ++ file).toList)[i]? ≠ some '\n') ∧
        properTokenAt ((folder ++ "/" ++ file).toList) q = true := by
  unfold is_proper
  rw [List.any_eq_true]
  constructor
  · rintro ⟨p, hp, hm⟩
    simp only [Bool.and_eq_true] at hm
    obtain ⟨q, hq1, hq2, hq3⟩ := properAfter_exists _ _ hm.2
    exact ⟨p, q, hm.1, hq1, hq2, hq3⟩
  · rintro ⟨p, q, hd, hpq, hpath, htok⟩
    refine ⟨p, List.mem_range.mpr (digit4At_lt_length hd), ?_⟩
    simp only [Bool.and_eq_true]
    refine ⟨hd, ?_⟩
    exact properAfter_of htok _ (p + 4) hpq
      (by have := properTokenAt_lt_length htok; omega) hpath

/-- C5 counterexample: in `1999\nx/proper.mkv` a standalone `proper` token
(index 7) is preceded earlier in the string by the four-digit sequence
`1999` (index 0), yet `is_proper` is false, because the newline at index 4
stops the `.*?` gap of `patterns.proper`. -/
theorem c5_newline_cex :
    digit4At (("1999\nx" ++ "/" ++ "proper.mkv").toList) 0 = true ∧
    properTokenAt (("1999\nx" ++ "/" ++ "proper.mkv").toList) 7 = true ∧
    is_proper "1999\nx" "proper.mkv" = false := by
  refine ⟨by decide, by decide, by decide⟩

/-- `\b<key>\b` compiled with `re.I` and tested at position `k` of `s` — the
regular expression `parser._edition_map` builds for each entry of the
configured edition table.  Edition keys are modelled as literal search
strings. -/
def keyMatchAt (s key : List Char) (k : Nat) : Bool :=
  wordBoundaryAt s k && litCIAt s k key && wordBoundaryAt s (k + key.length)

/-- `re.search` of `\b<key>\b` over `s`: the left-most match position. -/
def editionFind (s key : List Char) : Option Nat :=
  searchFrom (fun k => if keyMatchAt s key k then some k else none) 0 (s.length + 1)

/-- `rx.sub(value, g)`: replace every non-overlapping `\b<key>\b` match
inside `g` by `value`, scanning left to right (index-based because `\b`
depends on the surrounding characters). `fuel` dominates the length of `g`. -/
def subAllWBAux (g key value : List Char) : Nat → Nat → List Char
  | _, 0 => []
  | i, fuel + 1 =>
    match g[i]? with
    | none => []
    | some c =>
      if keyMatchAt g key i && decide (0 < key.length) then
        value ++ subAllWBAux g key value (i + key.length) fuel
      else
        c :: subAllWBAux g key value (i + 1) fuel

def subAllWB (key value g : List Char) : List Char :=
  subAllWBAux g key value 0 (g.length + 1)

/-- `parser._edition_map`: iterate the configured edition table in declared
order; for each `(key, value)` compile `\b key \b` with `re.I`, search the
folder+file string, and return at the first matching entry the tuple of the
matching pattern's key and `rx.sub(value, result.group())` — the canonical
replacement substituted into the matched text.  When no entry of the whole
table matches, return `none` (Python's `(None, None)`). -/
def edition_map :
    List (List Char × List Char) → String → String → Option (List Char × List Char)
  | [], _, _ => none
  | (key, value) :: rest, folder, file =>
    match editionFind ((folder ++ "/" ++ file).toList) key with
    | some k =>
      some (key, subAllWB key value
        ((((folder ++ "/" ++ file).toList).drop k).take key.length))
    | none => edition_map rest folder file

/-- `parser.get_edition`: the second component of `_edition_map`, with
Python's `or None` mapping an empty replacement string to `None`. -/
def get_edition (table : List (List Char × List Char)) (folder file : String) :
    Option (List Char) :=
  match edition_map table folder file with
  | some (_, v) => if v = [] then none else some v
  | none => none

example :
    edition_map [("unrated".toList, "Unrated".toList)] "A.UNRATED.2010" "b.mkv" =
      some ("unrated".toList, "Unrated".toList) := by decide
example :
    edition_map [("xx".toList, "y".toList)] "A.2010" "b.mkv" = none := by decide

theorem edition_map_eq_none_iff (folder file : String) :
    ∀ table, edition_map table folder file = none ↔
      ∀ kv ∈ table, editionFind ((folder ++ "/" ++ file).toList) kv.1 = none := by
  intro table
  induction table with
  | nil => simp [edition_map]
  | cons kv rest ih =>
    obtain ⟨key, value⟩ := kv
    cases hf : editionFind ((folder ++ "/" ++ file).toList) key with
    | some k =>
      simp only [edition_map, hf]
      constructor
      · intro h; exact absurd h (by simp)
      · intro h
        have := h (key, value) (by simp)
        simp only at this
        rw [hf] at this
        exact absurd this (by simp)
    | none =>
      simp only [edition_map, hf]
      rw [ih]
      constructor
      · intro h kv hm
        rcases List.mem_cons.mp hm with h1 | h1
        · subst h1; exact hf
        · exact h kv h1
      · intro h kv hm
        exact h kv (by simp [hm])

theorem edition_map_first (folder file : String) :
    ∀ (t1 : List (List Char × List Char)) key value t2 k,
      (∀ kv ∈ t1, editionFind ((folder ++ "/" ++ file).toList) kv.1 = none) →
      editionFind ((folder ++ "/" ++ file).toList) key = some k →
      edition_map (t1 ++ (key, value) :: t2) folder file =
        some (key, subAllWB key value
          ((((folder ++ "/" ++ file).toList).drop k).take key.length)) := by
  intro t1
  induction t1 with
  | nil =>
    intro key value t2 k _ hf
    simp only [List.nil_append, edition_map, hf]
  | cons kv rest ih =>
    intro key value t2 k h hf
    obtain ⟨k1, v1⟩ := kv
    have h1 : editionFind ((folder ++ "/" ++ file).toList) k1 = none := by
      have := h (k1, v1) (by simp)
      simpa using this
    simp only [List.cons_append, edition_map, h1]
    exact ih key value t2 k (fun kv hm => h kv (by simp [hm])) hf

/-- C6: `_edition_map` iterates the edition alias table in its declared
order, builds a word-boundary-delimited case-insensitive search per entry
over the folder+file string, returns the first entry that matches together
with the canonical replacement substituted into the matched text, and
returns `none` — with `get_edition` returning `None` — when no entry of the
whole table matches. -/
theorem c6_edition_first_match (table : List (List Char × List Char))
    (folder file : String) :
    (edition_map table folder file = none ↔
      ∀ kv ∈ table, editionFind ((folder ++ "/" ++ file).toList) kv.1 = none) ∧
    (∀ (t1 : List (List Char × List Char)) key value t2 k,
      table = t1 ++ (key, value) :: t2 →
      (∀ kv ∈ t1, editionFind ((folder ++ "/" ++ file).toList) kv.1 = none) →
      editionFind ((folder ++ "/" ++ file).toList) key = some k →
      edition_map table folder file =
        some (key, subAllWB key value
          ((((folder ++ "/" ++ file).toList).drop k).take key.length))) ∧
    ((∀ kv ∈ table, editionFind ((folder ++ "/" ++ file).toList) kv.1 = none) →
      get_edition table folder file = none) := by
  refine ⟨edition_map_eq_none_iff folder file table, ?_, ?_⟩
  · intro t1 key value t2 k heq h1 hf
    subst heq
    exact edition_map_first folder file t1 key value t2 k h1 hf
  · intro h
    have hn : edition_map table folder file = none :=
      (edition_map_eq_none_iff folder file table).mpr h
    unfold get_edition
    rw [hn]

/-- Python's `str(...)` of `get_year`'s result, as line 100 of
`parser.get_title` uses it: `str(None)` is the four-character string
`"None"`, `str(n)` the decimal rendering of the year. -/
def pyOptStr : Option Nat → List Char
  | none => ['N', 'o', 'n', 'e']
  | some n => (toString n).toList

/-- `title.split(sep)[0]` for a non-empty separator: everything before the
first occurrence of `sep`, or the whole string when `sep` does not occur. -/
def splitFirst (sep : List Char) : List Char → List Char
  | [] => []
  | c :: rest =>
    if sep.isPrefixOf (c :: rest) then []
    else c :: splitFirst sep rest

/-- Index of the first occurrence of `sep` in `s`, if any. -/
def findSub (sep : List Char) : List Char → Option Nat
  | [] => if sep.isPrefixOf ([] : List Char) then some 0 else none
  | c :: rest =>
    if sep.isPrefixOf (c :: rest) then some 0
    else (findSub sep rest).map (· + 1)

/-- Line 100 of `parser.get_title`:
`title = title.split(str(cls.get_year(source_path)))[0]`. -/
def year_split_step (y : Option Nat) (title : List Char) : List Char :=
  splitFirst (pyOptStr y) title

theorem splitFirst_of_none {sep : List Char} :
    ∀ s, findSub sep s = none → splitFirst sep s = s := by
  intro s
  induction s with
  | nil => intro _; rfl
  | cons c rest ih =>
    intro h
    by_cases hp : sep.isPrefixOf (c :: rest) = true
    · simp [findSub, hp] at h
    · simp only [findSub, hp, Bool.false_eq_true, if_false] at h
      simp only [splitFirst, hp, Bool.false_eq_true, if_false]
      cases hf : findSub sep rest with
      | none => rw [ih hf]
      | some j => rw [hf] at h; simp at h

theorem splitFirst_of_some {sep : List Char} :
    ∀ s i, findSub sep s = some i → splitFirst sep s = s.take i := by
  intro s
  induction s with
  | nil =>
    intro i h
    by_cases hp : sep.isPrefixOf ([] : List Char) = true
    · simp only [findSub, hp, if_true] at h
      have hi : i = 0 := by simpa using h.symm
      subst hi
      rfl
    · simp [findSub, hp] at h
  | cons c rest ih =>
    intro i h
    by_cases hp : sep.isPrefixOf (c :: rest) = true
    · simp only [findSub, hp, if_true] at h
      have hi : i = 0 := by simpa using h.symm
      subst hi
      simp [splitFirst, hp]
    · simp only [findSub, hp, Bool.false_eq_true, if_false] at h
      cases hf : findSub sep rest with
      | none => rw [hf] at h; simp at h
      | some j =>
        rw [hf] at h
        simp at h
        subst h
        simp only [splitFirst, hp, Bool.false_eq_true, if_false, List.take_succ_cons]
        rw [ih j hf]

/-- C9: for a source path from which `get_year` extracts no year, line 100
of `get_title` splits the title on the literal string `"None"`
(`str(None)`) and keeps only the part before its first occurrence: a
yearless title containing `"None"` is silently truncated there, while a
yearless title not containing `"None"` passes through unchanged. -/
theorem c9_year_none_split (folder file : String) (title : List Char)
    (h : get_year folder file = none) :
    (findSub (['N', 'o', 'n', 'e']) title = none →
      year_split_step (get_year folder file) title = title) ∧
    (∀ i, findSub (['N', 'o', 'n', 'e']) title = some i →
      year_split_step (get_year folder file) title = title.take i) := by
  rw [h]
  constructor
  · intro hf
    unfold year_split_step pyOptStr
    exact splitFirst_of_none title hf
  · intro i hf
    unfold year_split_step pyOptStr
    exact splitFirst_of_some title i hf

theorem c9_year_none_split_witness :
    year_split_step (get_year "The.None.Movie" "f.mkv") ("The None Movie".toList) =
      ("The None Movie".toList).take 4 :=
  (c9_year_none_split "The.None.Movie" "f.mkv" ("The None Movie".toList)
    (by decide)).2 4 (by decide)

/-- Greedy `c{0,n}` (case-insensitive) of the Roman-numeral grammar: how
many consecutive copies of `c`, at most `n`, sit at position `i`. -/
def countCharUpTo (s : List Char) (c : Char) : Nat → Nat → Nat
  | _, 0 => 0
  | i, n + 1 =>
    match s[i]? with
    | some d => if d.toLower == c then 1 + countCharUpTo s c (i + 1) n else 0
    | none => 0

/-- One component of the Roman-numeral grammar of `patterns.part`, e.g.
`(CM|CD|D?C{0,3})` with `one = 'c'`, `five = 'd'`, `ten = 'm'`: the number
of characters it consumes at `i` (case-insensitive, alternatives tried in
the pattern's order, `?` and `{0,3}` greedy). -/
def romanComponent (s : List Char) (i : Nat) (one five ten : Char) : Nat :=
  if litCIAt s i [one, ten] then 2
  else if litCIAt s i [one, five] then 2
  else if litCIAt s i [five] then 1 + countCharUpTo s one (i + 1) 3
  else countCharUpTo s one i 3

/-- `M{0,4}` of the Roman alternative. -/
def romanM (s : List Char) (g : Nat) : Nat := countCharUpTo s 'm' g 4

/-- Through the hundreds component `(CM|CD|D?C{0,3})`. -/
def romanH (s : List Char) (g : Nat) : Nat :=
  romanM s g + romanComponent s (g + romanM s g) 'c' 'd' 'm'

/-- Through the tens component `(XC|XL|L?X{0,3})`. -/
def romanT (s : List Char) (g : Nat) : Nat :=
  romanH s g + romanComponent s (g + romanH s g) 'x' 'l' 'c'

/-- The whole Roman-numeral alternative
`M{0,4}(CM|CD|D?C{0,3})(XC|XL|L?X{0,3})(IX|IV|V?I{0,3})` of
`patterns.part`: the number of characters it consumes at `g`.  Every piece
admits zero repetitions, so the whole alternative can match the empty
sequence. -/
def parseRoman (s : List Char) (g : Nat) : Nat :=
  romanT s g + romanComponent s (g + romanT s g) 'i' 'v' 'x'

/-- The capture group `(?P<part>(?:(\d+|...)))` of `patterns.part` at `g`:
the greedy `\d+` when a digit is present, otherwise the Roman alternative. -/
def partGroupLen (s : List Char) (g : Nat) : Nat :=
  if 0 < ((s.drop g).takeWhile Char.isDigit).length then
    ((s.drop g).takeWhile Char.isDigit).length
  else parseRoman s g

/-- The `\W?` of `patterns.part` after the literal `part`: one optional
non-word character, consumed greedily when present. -/
def partGroupStart (s : List Char) (k : Nat) : Nat :=
  match s[k + 4]? with
  | some c => if isWordChar c then k + 4 else k + 5
  | none => k + 4

/-- `\bpart` (`re.I`) at position `k`: the head of `patterns.part`.  The
rest of the pattern can always match (possibly emptily), so `re.search`
succeeds at the left-most such `k`. -/
def partHeadAt (s : List Char) (k : Nat) : Bool :=
  wordBoundaryAt s k && litCIAt s k ['p', 'a', 'r', 't']

/-- The left-most `\bpart` position (the match `re.search(patterns.part, s)`
settles on). -/
def partFind (s : List Char) : Option Nat :=
  searchFrom (fun k => if partHeadAt s k then some k else none) 0 (s.length + 1)

/-- `parser.get_part`: search `patterns.part` over `f'{folder}/{file}'` and
return `match.group('part').upper()`, or `None` when there is no match. -/
def get_part (folder file : String) : Option (List Char) :=
  match partFind ((folder ++ "/" ++ file).toList) with
  | some k =>
    some (((((folder ++ "/" ++ file).toList).drop
        (partGroupStart ((folder ++ "/" ++ file).toList) k)).take
        (partGroupLen ((folder ++ "/" ++ file).toList)
          (partGroupStart ((folder ++ "/" ++ file).toList) k))).map Char.toUpper)
  | none => none

/-- A character (CI) that lets the Roman-numeral alternative consume at
least one character. -/
def romanStartCI (c : Char) : Bool :=
  c.toLower == 'm' || c.toLower == 'd' || c.toLower == 'c' ||
  c.toLower == 'x' || c.toLower == 'l' || c.toLower == 'i' || c.toLower == 'v'

/-- The character at the part group's start position allows only an empty
group: it is absent, or neither a digit nor a Roman-numeral character. -/
def emptyGroupCharAt (s : List Char) (g : Nat) : Bool :=
  match s[g]? with
  | some c => !c.isDigit && !romanStartCI c
  | none => true

example : get_part "Movie.Part.2" "f.mkv" = some ['2'] := by decide
example : get_part "Movie.Part.II" "f.mkv" = some ['I', 'I'] := by decide
example : get_part "Movie.2010" "f.mkv" = none := by decide
example : get_part "Movie.Part" "f.mkv" = some [] := by decide

theorem countCharUpTo_zero {s : List Char} {c : Char} {i : Nat}
    (h : ∀ d, s[i]? = some d → d.toLower ≠ c) : ∀ n, countCharUpTo s c i n = 0 := by
  intro n
  cases n with
  | zero => rfl
  | succ n =>
    cases e : s[i]? with
    | none => simp [countCharUpTo, e]
    | some d =>
      have := h d e
      simp [countCharUpTo, e, this]

theorem litCIAt_false_head {s : List Char} {i : Nat} {c d : Char} {lit : List Char}
    (e : s[i]? = some d) (h : d.toLower ≠ c.toLower) :
    litCIAt s i (c :: lit) = false := by
  simp [litCIAt, e, h]

theorem litCIAt_false_none {s : List Char} {i : Nat} {c : Char} {lit : List Char}
    (e : s[i]? = none) : litCIAt s i (c :: lit) = false := by
  simp [litCIAt, e]

theorem romanComponent_zero_some {s : List Char} {g : Nat} {c one five ten : Char}
    (e : s[g]? = some c) (hone : one.toLower = one) (hfive : five.toLower = five)
    (h1 : c.toLower ≠ one) (h5 : c.toLower ≠ five) :
    romanComponent s g one five ten = 0 := by
  have h1' : c.toLower ≠ one.toLower := by rw [hone]; exact h1
  have h5' : c.toLower ≠ five.toLower := by rw [hfive]; exact h5
  have l1 : litCIAt s g [one, ten] = false := litCIAt_false_head e h1'
  have l2 : litCIAt s g [one, five] = false := litCIAt_false_head e h1'
  have l3 : litCIAt s g [five] = false := litCIAt_false_head e h5'
  have cc : countCharUpTo s one g 3 = 0 := by
    apply countCharUpTo_zero
    intro d hd
    rw [e] at hd
    injection hd with hd
    subst hd
    exact h1
  simp [romanComponent, l1, l2, l3, cc]

theorem romanComponent_zero_none {s : List Char} {g : Nat} {one five ten : Char}
    (e : s[g]? = none) : romanComponent s g one five ten = 0 := by
  have l1 : litCIAt s g [one, ten] = false := litCIAt_false_none e
  have l2 : litCIAt s g [one, five] = false := litCIAt_false_none e
  have l3 : litCIAt s g [five] = false := litCIAt_false_none e
  have cc : countCharUpTo s one g 3 = 0 := by
    apply countCharUpTo_zero
    intro d hd
    rw [e] at hd
    exact absurd hd (by simp)
  simp [romanComponent, l1, l2, l3, cc]

theorem parseRoman_zero_some {s : List Char} {g : Nat} {c : Char}
    (e : s[g]? = some c) (hc : romanStartCI c = false) : parseRoman s g = 0 := by
  have hM : c.toLower ≠ 'm' := by intro hh; simp [romanStartCI, hh] at hc
  have hD : c.toLower ≠ 'd' := by intro hh; simp [romanStartCI, hh] at hc
  have hC : c.toLower ≠ 'c' := by intro hh; simp [romanStartCI, hh] at hc
  have hX : c.toLower ≠ 'x' := by intro hh; simp [romanStartCI, hh] at hc
  have hL : c.toLower ≠ 'l' := by intro hh; simp [romanStartCI, hh] at hc
  have hI : c.toLower ≠ 'i' := by intro hh; simp [romanStartCI, hh] at hc
  have hV : c.toLower ≠ 'v' := by intro hh; simp [romanStartCI, hh] at hc
  have hm0 : romanM s g = 0 := by
    apply countCharUpTo_zero
    intro d hd
    rw [e] at hd
    injection hd with hd
    subst hd
    exact hM
  have hh0 : romanH s g = 0 := by
    simp [romanH, hm0, romanComponent_zero_some e (by decide) (by decide) hC hD]
  have ht0 : romanT s g = 0 := by
    simp [romanT, hh0, romanComponent_zero_some e (by decide) (by decide) hX hL]
  simp [parseRoman, ht0, romanComponent_zero_some e (by decide) (by decide) hI hV]

theorem parseRoman_zero_none {s : List Char} {g : Nat}
    (e : s[g]? = none) : parseRoman s g = 0 := by
  have hm0 : romanM s g = 0 := by
    apply countCharUpTo_zero
    intro d hd
    rw [e] at hd
    exact absurd hd (by simp)
  have hh0 : romanH s g = 0 := by
    simp [romanH, hm0, romanComponent_zero_none e]
  have ht0 : romanT s g = 0 := by
    simp [romanT, hh0, romanComponent_zero_none e]
  simp [parseRoman, ht0, romanComponent_zero_none e]

theorem takeWhile_nil_of_head {l : List Char} {p : Char → Bool}
    (h : ∀ d, l.head? = some d → p d = false) : l.takeWhile p = [] := by
  cases l with
  | nil => rfl
  | cons c rest =>
    have := h c rfl
    simp [List.takeWhile_cons, this]

theorem partGroupLen_zero {s : List Char} {g : Nat}
    (h : emptyGroupCharAt s g = true) : partGroupLen s g = 0 := by
  unfold emptyGroupCharAt at h
  cases e : s[g]? with
  | none =>
    have hd : (s.drop g).takeWhile Char.isDigit = [] := by
      apply takeWhile_nil_of_head
      intro d hdd
      rw [List.head?_eq_getElem?, List.getElem?_drop] at hdd
      simp only [Nat.add_zero] at hdd
      rw [e] at hdd
      exact absurd hdd (by simp)
    unfold partGroupLen
    rw [hd]
    simpa using parseRoman_zero_none e
  | some c =>
    rw [e] at h
    simp only [Bool.and_eq_true, Bool.not_eq_true'] at h
    have hd : (s.drop g).takeWhile Char.isDigit = [] := by
      apply takeWhile_nil_of_head
      intro d hdd
      rw [List.head?_eq_getElem?, List.getElem?_drop] at hdd
      simp only [Nat.add_zero] at hdd
      rw [e] at hdd
      injection hdd with hdd
      subst hdd
      exact h.1
    unfold partGroupLen
    rw [hd]
    simpa using parseRoman_zero_some e h.2

/-- C10 (amended): when the search of `patterns.part` matches — at the
left-most standalone `part` token — and the character after the optional
punctuation (`\W?`) is neither a digit nor a Roman-numeral character, the
capture group matches an empty sequence of characters, so `get_part`
returns the empty string rather than `None`.  A later qualifying `part`
token does not control the result when an earlier one matched. -/
theorem c10_part_empty_group (folder file : String) (k : Nat)
    (hfind : partFind ((folder ++ "/" ++ file).toList) = some k)
    (hempty : emptyGroupCharAt ((folder ++ "/" ++ file).toList)
      (partGroupStart ((folder ++ "/" ++ file).toList) k) = true) :
    get_part folder file = some [] := by
  unfold get_part
  rw [hfind]
  show some (((((folder ++ "/" ++ file).toList).drop
      (partGroupStart ((folder ++ "/" ++ file).toList) k)).take
      (partGroupLen ((folder ++ "/" ++ file).toList)
        (partGroupStart ((folder ++ "/" ++ file).toList) k))).map Char.toUpper) = some []
  rw [partGroupLen_zero hempty, List.take_zero, List.map_nil]

theorem c10_part_empty_group_witness :
    get_part "Movie.Part" "f.mkv" = some [] :=
  c10_part_empty_group "Movie.Part" "f.mkv" 6 (by decide) (by decide)

/-- C10 counterexample: `A.Part.2/part.avi` contains (at index 9) a
standalone `part` token followed by punctuation and by no digit and no
Roman numeral, yet `get_part` returns `"2"`, not the empty string: the
left-most token `Part.2` (index 2) decides. -/
theorem c10_leftmost_cex :
    get_part "A.Part.2" "part.avi" = some ['2'] ∧
    partHeadAt (("A.Part.2" ++ "/" ++ "part.avi").toList) 9 = true ∧
    emptyGroupCharAt (("A.Part.2" ++ "/" ++ "part.avi").toList)
      (partGroupStart (("A.Part.2" ++ "/" ++ "part.avi").toList) 9) = true := by
  refine ⟨by decide, by decide, by decide⟩

/-- Modelled from the spec: an abstract filesystem for the Safe Transfer
Engine (the engine's module, `fylmlib.operations.fileops`, is not among the
staged source files; only `tests/test_move.py` exercises it).  A path maps
to the byte content of the file stored there, or `none` when absent. -/
def FSState : Type := String → Option (List Nat)

/-- Point update of the abstract filesystem. -/
def fsUpdate (fs : FSState) (p : String) (v : Option (List Nat)) : FSState :=
  fun q => if q = p then v else fs q

theorem fsUpdate_same (fs : FSState) (p : String) (v : Option (List Nat)) :
    fsUpdate fs p v p = v := by simp [fsUpdate]

theorem fsUpdate_other (fs : FSState) (p q : String) (v : Option (List Nat))
    (h : q ≠ p) : fsUpdate fs p v q = fs q := by simp [fsUpdate, h]

/-- Modelled from the spec: the configuration flags the Safe Transfer
Engine reads (`config.test` — dry-run, `config.safe_copy`,
`config.duplicates.force_overwrite`). -/
structure TransferFlags where
  test : Bool
  safe_copy : Bool
  force_overwrite : Bool

/-- Modelled from the spec (§4.4, Evaluate and transfer):
`fileops.safe_move(src, dst, ok_to_upgrade=False)`.  `none` models the
fatal `SourceNotFound` error; otherwise the Boolean outcome and resulting
filesystem.  Policy on an existing destination: replace under
force-overwrite, under `allowUpgrade` with a strictly smaller source, or
with a strictly greater source; otherwise reject with both files left
untouched.  Dry-run (`test`) reports the would-be outcome with no
mutation. -/
def safe_move (flags : TransferFlags) (fs : FSState) (src dst : String)
    (ok_to_upgrade : Bool) : Option (Bool × FSState) :=
  match fs src with
  | none => none
  | some data =>
    if src = dst then some (false, fs)
    else
      match fs dst with
      | some ddata =>
        if flags.force_overwrite ||
            (ok_to_upgrade && decide (data.length < ddata.length)) ||
            decide (ddata.length < data.length) then
          if flags.test then some (true, fs)
          else some (true, fsUpdate (fsUpdate fs dst (some data)) src none)
        else some (false, fs)
      | none =>
        if flags.test then some (true, fs)
        else some (true, fsUpdate (fsUpdate fs dst (some data)) src none)

/-- C7: when the destination already exists with a size equal to or greater
than the source, force-overwrite is disabled and `allowUpgrade` is false,
`safe_move` reports an unsuccessful outcome and returns the filesystem
unchanged — both the source file and the destination file are untouched. -/
theorem c7_safe_move_reject (flags : TransferFlags) (fs : FSState)
    (src dst : String) (sdata ddata : List Nat)
    (hs : fs src = some sdata) (hd : fs dst = some ddata)
    (hsize : sdata.length ≤ ddata.length)
    (hforce : flags.force_overwrite = false) :
    safe_move flags fs src dst false = some (false, fs) := by
  by_cases he : src = dst
  · subst he
    simp [safe_move, hs]
  · simp only [safe_move, hs, hd, he, if_false]
    have hcond : (flags.force_overwrite ||
        (false && decide (sdata.length < ddata.length)) ||
        decide (ddata.length < sdata.length)) = false := by
      rw [hforce]
      simp
      omega
    rw [hcond]
    simp

theorem c7_safe_move_reject_witness :
    safe_move ⟨false, false, false⟩
      (fun p => if p = "a" then some [1] else if p = "b" then some [1, 2] else none)
      "a" "b" false =
      some (false,
        fun p => if p = "a" then some [1] else if p = "b" then some [1, 2] else none) :=
  c7_safe_move_reject ⟨false, false, false⟩
    (fun p => if p = "a" then some [1] else if p = "b" then some [1, 2] else none)
    "a" "b" [1] [1, 2] rfl rfl (by decide) rfl

/-- The staging-file naming convention `<destination>.partial~` of the
Safe Transfer Engine. -/
def stagingName (dst : String) : String := dst ++ ".partial~"

theorem stagingName_ne (dst : String) : dst ≠ stagingName dst := by
  intro h
  have hlen := congrArg String.length h
  rw [stagingName, String.length_append] at hlen
  have h9 : (".partial~" : String).length = 9 := rfl
  omega

/-- Modelled from the spec (§4.4 StagedCopy): the staged copy streams the
source bytes into the staging file `<destination>.partial~`, with an
injected failure point.  `failAt = some n` makes the copy fail after `n`
bytes are written (capped at the source size).  Returned are the externally
observable filesystem states in order, the outcome, and the final state:
on failure the staging file is deleted, the outcome is false; on success
(`failAt = none`) the staging file is atomically renamed onto the
destination, the source is deleted and the outcome is true. -/
def stagedCopy (fs : FSState) (src dst : String) (failAt : Option Nat) :
    List FSState × Bool × FSState :=
  match fs src with
  | none => ([], false, fs)
  | some data =>
    match failAt with
    | some n =>
      ((List.range (min n data.length + 1)).map
          (fun i => fsUpdate fs (stagingName dst) (some (data.take i))) ++
        [fsUpdate fs (stagingName dst) none],
       false,
       fsUpdate fs (stagingName dst) none)
    | none =>
      ((List.range (data.length + 1)).map
          (fun i => fsUpdate fs (stagingName dst) (some (data.take i))) ++
        [fsUpdate (fsUpdate fs dst (some data)) (stagingName dst) none,
         fsUpdate (fsUpdate (fsUpdate fs dst (some data)) (stagingName dst) none)
           src none],
       true,
       fsUpdate (fsUpdate (fsUpdate fs dst (some data)) (stagingName dst) none)
         src none)

/-- C8: a staged copy that fails after any number of written bytes reports
an unsuccessful outcome, leaves no staging file behind, leaves source and
destination exactly as they were, and in *every* externally observable
intermediate state only the staging path `<destination>.partial~` ever
differs from the initial filesystem — the destination path never holds a
partially-written file under its final name. -/
theorem c8_staged_copy_failure_safe (fs : FSState) (src dst : String)
    (data : List Nat) (n : Nat) (hs : fs src = some data)
    (hsrc : src ≠ stagingName dst) :
    (stagedCopy fs src dst (some n)).2.1 = false ∧
    ((stagedCopy fs src dst (some n)).2.2) (stagingName dst) = none ∧
    ((stagedCopy fs src dst (some n)).2.2) src = fs src ∧
    ((stagedCopy fs src dst (some n)).2.2) dst = fs dst ∧
    (∀ g ∈ (stagedCopy fs src dst (some n)).1,
      ∀ p, p ≠ stagingName dst → g p = fs p) ∧
    (∀ g ∈ (stagedCopy fs src dst (some n)).1,
      g src = fs src ∧ g dst = fs dst) := by
  have hdst : dst ≠ stagingName dst := stagingName_ne dst
  have hmem : ∀ g ∈ (stagedCopy fs src dst (some n)).1,
      ∀ p, p ≠ stagingName dst → g p = fs p := by
    intro g hg p hp
    simp only [stagedCopy, hs] at hg
    rcases List.mem_append.mp hg with hg | hg
    · obtain ⟨i, _, rfl⟩ := List.mem_map.mp hg
      exact fsUpdate_other fs (stagingName dst) p _ hp
    · have : g = fsUpdate fs (stagingName dst) none := by simpa using hg
      subst this
      exact fsUpdate_other fs (stagingName dst) p _ hp
  have hfin : (stagedCopy fs src dst (some n)).2.2 =
      fsUpdate fs (stagingName dst) none := by
    simp only [stagedCopy, hs]
  refine ⟨?_, ?_, ?_, ?_, hmem, ?_⟩
  · simp only [stagedCopy, hs]
  · rw [hfin]
    exact fsUpdate_same fs (stagingName dst) none
  · rw [hfin]
    exact fsUpdate_other fs (stagingName dst) src _ hsrc
  · rw [hfin]
    exact fsUpdate_other fs (stagingName dst) dst _ hdst
  · intro g hg
    exact ⟨hmem g hg src hsrc, hmem g hg dst hdst⟩

theorem c8_staged_copy_failure_safe_witness :
    (stagedCopy (fun p => if p = "s" then some [1, 2] else none) "s" "d" (some 1)).2.1 = false ∧
    ((stagedCopy (fun p => if p = "s" then some [1, 2] else none) "s" "d" (some 1)).2.2)
      (stagingName "d") = none ∧
    ((stagedCopy (fun p => if p = "s" then some [1, 2] else none) "s" "d" (some 1)).2.2) "s" =
      (fun p : String => if p = "s" then some [1, 2] else none) "s" ∧
    ((stagedCopy (fun p => if p = "s" then some [1, 2] else none) "s" "d" (some 1)).2.2) "d" =
      (fun p : String => if p = "s" then some [1, 2] else none) "d" ∧
    (∀ g ∈ (stagedCopy (fun p => if p = "s" then some [1, 2] else none) "s" "d" (some 1)).1,
      ∀ p, p ≠ stagingName "d" → g p =
        (fun q : String => if q = "s" then some [1, 2] else none) p) ∧
    (∀ g ∈ (stagedCopy (fun p => if p = "s" then some [1, 2] else none) "s" "d" (some 1)).1,
      g "s" = (fun p : String => if p = "s" then some [1, 2] else none) "s" ∧
      g "d" = (fun p : String => if p = "s" then some [1, 2] else none) "d") :=
  c8_staged_copy_failure_safe (fun p => if p = "s" then some [1, 2] else none)
    "s" "d" [1, 2] 1 rfl (by decide)
